import Mathlib

/-!
Verification of the NURBS curve evaluation core (`nurbs_curve.py`).

The source is embedded shallowly: Python ints and floats become `ℤ`/`ℚ`,
Python lists become `List`, and the accumulation loops of `evaluate`
become `Finset.range` sums.  Index accesses that the source performs with
plain subscripts (which raise `IndexError` out of range) are modelled with
`List.getD` in the plain embedding and with `Option`-returning access in
the bounds-checked variants used for the safety claims.
-/

/-- Embedding of Python `range(a, b)` over the integers. -/
def pyRange (a b : ℤ) : List ℤ :=
  (List.range (b - a).toNat).map (fun j : ℕ => a + (j : ℤ))

/-- Embedding of `num_knots = len(self.control_points) + self.degree + 1` (line 26). -/
def num_knots (n d : ℕ) : ℤ := (n : ℤ) + (d : ℤ) + 1

/-- Embedding of `NurbsCurve.get_uniform_knots_v` (lines 18-27):
`[0]*(d+1) + list(range(1, num_knots - 2*d)) + [num_knots - 2*d]*(d+1)`
for `n` control points and degree `d`. -/
def get_uniform_knots_v (n d : ℕ) : List ℚ :=
  List.replicate (d + 1) (0 : ℚ)
    ++ (pyRange 1 (num_knots n d - 2 * (d : ℤ))).map (fun z : ℤ => (z : ℚ))
    ++ List.replicate (d + 1) ((num_knots n d - 2 * (d : ℤ) : ℤ) : ℚ)

/-- Embedding of `NurbsCurve.cox_de_boor` (lines 29-54).  The recursion is
structural on the degree `k`; knot accesses use `List.getD` (the in-bounds
claims are handled by the checked variant below). -/
def cox_de_boor (knots : List ℚ) (i : ℕ) (k : ℕ) (t : ℚ) : ℚ :=
  match k with
  | 0 => if knots.getD i 0 ≤ t ∧ t < knots.getD (i + 1) 0 then 1 else 0
  | k + 1 =>
      let ld := knots.getD (i + k + 1) 0 - knots.getD i 0
      let rd := knots.getD (i + k + 2) 0 - knots.getD (i + 1) 0
      (if ld ≠ 0 then (t - knots.getD i 0) / ld * cox_de_boor knots i k t else 0)
        + (if rd ≠ 0 then (knots.getD (i + k + 2) 0 - t) / rd * cox_de_boor knots (i + 1) k t
           else 0)

/-- Embedding of `np.linspace(a, b, num)` with endpoint included:
`num` evenly spaced values from `a` to `b`. -/
def linspace (a b : ℚ) (num : ℕ) : List ℚ :=
  if num = 1 then [a]
  else (List.range num).map (fun i : ℕ => a + (i : ℚ) * (b - a) / ((num : ℚ) - 1))

/-- The accumulated `weight_sum` of the sampling loop (lines 72-75) at one
parameter value `t`. -/
def weightSumAt (points : List (ℚ × ℚ)) (weights : List ℚ) (knots : List ℚ)
    (d : ℕ) (t : ℚ) : ℚ :=
  ∑ i ∈ Finset.range points.length, cox_de_boor knots i d t * weights.getD i 0

/-- The raw `point` accumulator of the sampling loop (lines 71-76) at one
parameter value `t`, before any normalization. -/
def rawPointAt (points : List (ℚ × ℚ)) (weights : List ℚ) (knots : List ℚ)
    (d : ℕ) (t : ℚ) : ℚ × ℚ :=
  (∑ i ∈ Finset.range points.length,
      cox_de_boor knots i d t * weights.getD i 0 * (points.getD i (0, 0)).1,
   ∑ i ∈ Finset.range points.length,
      cox_de_boor knots i d t * weights.getD i 0 * (points.getD i (0, 0)).2)

/-- One iteration of the outer sampling loop (lines 69-81): accumulate,
then normalize only when `weight_sum > 0`. -/
def samplePoint (points : List (ℚ × ℚ)) (weights : List ℚ) (knots : List ℚ)
    (d : ℕ) (t : ℚ) : ℚ × ℚ :=
  let ws := weightSumAt points weights knots d t
  let p := rawPointAt points weights knots d t
  if 0 < ws then (p.1 / ws, p.2 / ws) else p

/-- Embedding of `t_min = self.knots[self.degree]` (line 64) for the knot vector built
from `n` control points and degree `d`. -/
def built_t_min (n d : ℕ) : ℚ := (get_uniform_knots_v n d).getD d 0

/-- Embedding of `t_max = self.knots[-self.degree - 1]` (line 65), i.e. the entry at
position `length - degree - 1`. -/
def built_t_max (n d : ℕ) : ℚ :=
  (get_uniform_knots_v n d).getD ((get_uniform_knots_v n d).length - d - 1) 0

/-- Embedding of `NurbsCurve.evaluate` (lines 56-83): sample `samples`
parameter values over `[t_min, t_max]`, map the per-sample loop body over
them, and drop the final point (`curve_points[:-1]`). -/
def evaluate (points : List (ℚ × ℚ)) (weights : List ℚ) (degree : ℕ)
    (samples : ℕ) : List (ℚ × ℚ) :=
  ((linspace (built_t_min points.length degree) (built_t_max points.length degree)
      samples).map
    (fun t => samplePoint points weights (get_uniform_knots_v points.length degree)
      degree t)).dropLast

/-- Closed form for the knot vector entries over `ℤ`: `0` for the first
`d+1` positions, consecutive integers for the middle, `n - d + 1` for the
tail. -/
def knotFunZ (n d : ℕ) (j : ℕ) : ℤ :=
  if j ≤ d then 0 else if j ≤ n then (j : ℤ) - (d : ℤ) else (n : ℤ) - (d : ℤ) + 1

/-- The knot vector entries as rationals. -/
def knotFun (n d : ℕ) (j : ℕ) : ℚ := ((knotFunZ n d j : ℤ) : ℚ)

/-- Variant of `cox_de_boor` over a total knot function instead of a list; used to
reason about the recursion independently of list indexing. -/
def coxF (U : ℕ → ℚ) (i : ℕ) (k : ℕ) (t : ℚ) : ℚ :=
  match k with
  | 0 => if U i ≤ t ∧ t < U (i + 1) then 1 else 0
  | k + 1 =>
      let ld := U (i + k + 1) - U i
      let rd := U (i + k + 2) - U (i + 1)
      (if ld ≠ 0 then (t - U i) / ld * coxF U i k t else 0)
        + (if rd ≠ 0 then (U (i + k + 2) - t) / rd * coxF U (i + 1) k t else 0)

/-- The left mixing coefficient of the Cox-de Boor recursion, with the
`0` convention at a vanishing denominator. -/
def coefA (U : ℕ → ℚ) (k i : ℕ) (t : ℚ) : ℚ :=
  if U (i + k + 1) - U i = 0 then 0 else (t - U i) / (U (i + k + 1) - U i)

/-- The right mixing coefficient of the Cox-de Boor recursion, with the
`0` convention at a vanishing denominator. -/
def coefB (U : ℕ → ℚ) (k i : ℕ) (t : ℚ) : ℚ :=
  if U (i + k + 1) - U i = 0 then 0 else (U (i + k + 1) - t) / (U (i + k + 1) - U i)

/-- Python float division, `none` modelling a `ZeroDivisionError`. -/
def qdiv (a b : ℚ) : Option ℚ := if b = 0 then none else some (a / b)

/-- Variant of `cox_de_boor` with every division that the source actually executes
routed through `qdiv`: a `none` result would mean the recursion raised a
`ZeroDivisionError`. -/
def cox_de_boorE (knots : List ℚ) (i : ℕ) (k : ℕ) (t : ℚ) : Option ℚ :=
  match k with
  | 0 => some (if knots.getD i 0 ≤ t ∧ t < knots.getD (i + 1) 0 then 1 else 0)
  | k + 1 => do
      let ld := knots.getD (i + k + 1) 0 - knots.getD i 0
      let rd := knots.getD (i + k + 2) 0 - knots.getD (i + 1) 0
      let left ← if ld ≠ 0 then do
          let q ← qdiv (t - knots.getD i 0) ld
          let r ← cox_de_boorE knots i k t
          pure (q * r)
        else pure 0
      let right ← if rd ≠ 0 then do
          let q ← qdiv (knots.getD (i + k + 2) 0 - t) rd
          let r ← cox_de_boorE knots (i + 1) k t
          pure (q * r)
        else pure 0
      pure (left + right)

/-- Python list subscription `l[j]` with negative-index wraparound,
`none` modelling an `IndexError`. -/
def pyGet (l : List ℚ) (j : ℤ) : Option ℚ :=
  if 0 ≤ j then l[j.toNat]?
  else if 0 ≤ j + (l.length : ℤ) then l[(j + (l.length : ℤ)).toNat]? else none

/-- Variant of `cox_de_boor` with every knot subscription bounds-checked: a `none`
result would mean some knot access raised an `IndexError`.  The base case
mirrors the short-circuit of the chained comparison on line 42. -/
def cox_de_boorB (knots : List ℚ) (i : ℕ) (k : ℕ) (t : ℚ) : Option ℚ :=
  match k with
  | 0 => do
      let a ← knots[i]?
      if a ≤ t then do
        let b ← knots[i + 1]?
        pure (if t < b then (1 : ℚ) else 0)
      else pure 0
  | k + 1 => do
      let ki ← knots[i]?
      let kik ← knots[i + k + 1]?
      let kik1 ← knots[i + k + 2]?
      let ki1 ← knots[i + 1]?
      let ld := kik - ki
      let rd := kik1 - ki1
      let left ← if ld ≠ 0 then do
          let r ← cox_de_boorB knots i k t
          pure ((t - ki) / ld * r)
        else pure 0
      let right ← if rd ≠ 0 then do
          let r ← cox_de_boorB knots (i + 1) k t
          pure ((kik1 - t) / rd * r)
        else pure 0
      pure (left + right)

/-- The basis values the sampling loop requests at one parameter value,
all knot accesses bounds-checked. -/
def influencesB (knots : List ℚ) (nPts d : ℕ) (t : ℚ) : Option (List ℚ) :=
  (List.range nPts).mapM (fun i => cox_de_boorB knots i d t)

/-- Bounds-checked version of one iteration of the sampling loop. -/
def samplePointB (points : List (ℚ × ℚ)) (weights : List ℚ) (knots : List ℚ)
    (d : ℕ) (t : ℚ) : Option (ℚ × ℚ) := do
  let infl ← influencesB knots points.length d t
  let ws := ∑ i ∈ Finset.range points.length, infl.getD i 0 * weights.getD i 0
  let px := ∑ i ∈ Finset.range points.length,
      infl.getD i 0 * weights.getD i 0 * (points.getD i (0, 0)).1
  let py := ∑ i ∈ Finset.range points.length,
      infl.getD i 0 * weights.getD i 0 * (points.getD i (0, 0)).2
  pure (if 0 < ws then (px / ws, py / ws) else (px, py))

/-- Bounds-checked version of `evaluate`: the two direct knot accesses of
lines 64-65 use Python subscription semantics, and every knot access of
the per-sample basis recursion is checked. -/
def evaluateB (points : List (ℚ × ℚ)) (weights : List ℚ) (degree : ℕ)
    (samples : ℕ) : Option (List (ℚ × ℚ)) := do
  let knots := get_uniform_knots_v points.length degree
  let t_min ← pyGet knots (degree : ℤ)
  let t_max ← pyGet knots (-(degree : ℤ) - 1)
  let pts ← (linspace t_min t_max samples).mapM
      (fun t => samplePointB points weights knots degree t)
  pure pts.dropLast

theorem knots_length (n d : ℕ) :
    (get_uniform_knots_v n d).length = (d + 1) + (n - d) + (d + 1) := by
  rw [get_uniform_knots_v, List.length_append, List.length_append, List.length_replicate,
    List.length_replicate, List.length_map]
  rw [pyRange, List.length_map, List.length_range]
  rw [num_knots]
  omega

theorem knotFun_le_d (n d j : ℕ) (h : j ≤ d) : knotFun n d j = 0 := by
  simp [knotFun, knotFunZ, h]

theorem knots_getD (n d j : ℕ) (hj : j < (get_uniform_knots_v n d).length) :
    (get_uniform_knots_v n d).getD j 0 = knotFun n d j := by
  have hA : (List.replicate (d + 1) (0 : ℚ)).length = d + 1 := List.length_replicate _ _
  have hB : ((pyRange 1 (num_knots n d - 2 * (d : ℤ))).map
      (fun z : ℤ => (z : ℚ))).length = n - d := by
    rw [List.length_map, pyRange, List.length_map, List.length_range, num_knots]
    omega
  have hlen := knots_length n d
  rw [get_uniform_knots_v, List.append_assoc]
  rcases Nat.lt_or_ge j (d + 1) with h1 | h1
  · rw [List.getD_append _ _ _ _ (by rw [hA]; exact h1)]
    rw [List.getD_eq_getElem _ _ (by rw [hA]; exact h1), List.getElem_replicate]
    rw [knotFun_le_d n d j (by omega)]
  · rw [List.getD_append_right _ _ _ _ (by rw [hA]; exact h1), hA]
    rcases Nat.lt_or_ge (j - (d + 1)) (n - d) with h2 | h2
    · rw [List.getD_append _ _ _ _ (by rw [hB]; exact h2)]
      rw [List.getD_eq_getElem _ _ (by rw [hB]; exact h2)]
      rw [List.getElem_map]
      simp only [pyRange, List.getElem_map, List.getElem_range]
      rw [knotFun, knotFunZ]
      rw [if_neg (show ¬ j ≤ d by omega), if_pos (show j ≤ n by omega)]
      have hcast : ((j - (d + 1) : ℕ) : ℤ) = (j : ℤ) - ((d : ℤ) + 1) := by omega
      push_cast [hcast]
      ring
    · rw [List.getD_append_right _ _ _ _ (by rw [hB]; exact h2), hB]
      rw [List.getD_eq_getElem _ _ (by rw [List.length_replicate]; omega),
        List.getElem_replicate]
      rw [knotFun, knotFunZ, num_knots]
      rw [if_neg (show ¬ j ≤ d by omega), if_neg (show ¬ j ≤ n by omega)]
      push_cast
      ring

theorem knotFun_mono (n d : ℕ) (hdn : d ≤ n) : Monotone (knotFun n d) := by
  intro j j' hjj
  have h : knotFunZ n d j ≤ knotFunZ n d j' := by
    unfold knotFunZ
    split_ifs <;> omega
  unfold knotFun
  exact_mod_cast h

theorem knotFun_nonneg (n d j : ℕ) (hdn : d ≤ n) : 0 ≤ knotFun n d j := by
  have h : 0 ≤ knotFunZ n d j := by
    unfold knotFunZ
    split_ifs <;> omega
  unfold knotFun
  exact_mod_cast h

theorem knotFun_nonpos_iff (n d j : ℕ) (hdn : d ≤ n) : knotFun n d j ≤ 0 ↔ j ≤ d := by
  have h : knotFunZ n d j ≤ 0 ↔ j ≤ d := by
    unfold knotFunZ
    split_ifs <;> omega
  unfold knotFun
  rw [show (0 : ℚ) = ((0 : ℤ) : ℚ) from rfl, Int.cast_le]
  exact h

theorem knotFun_succ_d (n d : ℕ) (hdn : d ≤ n) : knotFun n d (d + 1) = 1 := by
  have h : knotFunZ n d (d + 1) = 1 := by
    unfold knotFunZ
    split_ifs <;> omega
  unfold knotFun
  exact_mod_cast h

theorem knotFun_at_n (n d : ℕ) (hdn : d < n) : knotFun n d n = (n : ℚ) - (d : ℚ) := by
  rw [knotFun, knotFunZ, if_neg (by omega), if_pos (le_refl n)]
  push_cast
  ring

theorem knotFun_top (n d j : ℕ) (hdn : d ≤ n) (h : n < j) :
    knotFun n d j = (n : ℚ) - (d : ℚ) + 1 := by
  rw [knotFun, knotFunZ, if_neg (by omega), if_neg (by omega)]
  push_cast
  ring

theorem knotFun_val (n d j : ℕ) (h1 : d < j) (h2 : j ≤ n) :
    knotFun n d j = (j : ℚ) - (d : ℚ) := by
  rw [knotFun, knotFunZ, if_neg (by omega), if_pos h2]
  push_cast
  ring

theorem cox_de_boor_eq_coxF (knots : List ℚ) (U : ℕ → ℚ) (t : ℚ) :
    ∀ (k i : ℕ), (∀ j, i ≤ j → j ≤ i + k + 1 → knots.getD j 0 = U j) →
    cox_de_boor knots i k t = coxF U i k t := by
  intro k
  induction k with
  | zero =>
      intro i h
      unfold cox_de_boor coxF
      rw [h i le_rfl (by omega), h (i + 1) (by omega) (by omega)]
  | succ k ih =>
      intro i h
      unfold cox_de_boor coxF
      rw [h i le_rfl (by omega), h (i + k + 1) (by omega) (by omega),
        h (i + k + 2) (by omega) (by omega), h (i + 1) (by omega) (by omega)]
      rw [ih i (fun j hj1 hj2 => h j hj1 (by omega)),
        ih (i + 1) (fun j hj1 hj2 => h j (by omega) (by omega))]

theorem coxF_eq_zero (U : ℕ → ℚ) (hU : Monotone U) (t : ℚ) :
    ∀ (k i : ℕ), ¬ (U i ≤ t ∧ t < U (i + k + 1)) → coxF U i k t = 0 := by
  intro k
  induction k with
  | zero =>
      intro i h
      unfold coxF
      rw [if_neg h]
  | succ k ih =>
      intro i h
      have h1 : coxF U i k t = 0 := by
        apply ih
        intro hs
        apply h
        have e : i + (k + 1) + 1 = i + k + 2 := by omega
        rw [e]
        exact ⟨hs.1, lt_of_lt_of_le hs.2 (hU (by omega))⟩
      have h2 : coxF U (i + 1) k t = 0 := by
        apply ih
        intro hs
        apply h
        have e : i + (k + 1) + 1 = i + 1 + k + 1 := by omega
        rw [e]
        exact ⟨le_trans (hU (by omega)) hs.1, hs.2⟩
      unfold coxF
      rw [h1, h2]
      simp

theorem coxF_nonneg (U : ℕ → ℚ) (hU : Monotone U) (t : ℚ) :
    ∀ (k i : ℕ), 0 ≤ coxF U i k t := by
  intro k
  induction k with
  | zero =>
      intro i
      unfold coxF
      split_ifs <;> norm_num
  | succ k ih =>
      intro i
      unfold coxF
      apply add_nonneg
      · split_ifs with hld
        · rcases eq_or_ne (coxF U i k t) 0 with h0 | h0
          · rw [h0, mul_zero]
          · have hsupp : U i ≤ t ∧ t < U (i + k + 1) := by
              by_contra hc
              exact h0 (coxF_eq_zero U hU t k i hc)
            have hldpos : 0 < U (i + k + 1) - U i :=
              lt_of_le_of_ne (by simpa [sub_nonneg] using hU (show i ≤ i + k + 1 by omega))
                (Ne.symm hld)
            exact mul_nonneg (div_nonneg (by linarith [hsupp.1]) (le_of_lt hldpos)) (ih i)
        · exact le_refl 0
      · split_ifs with hrd
        · rcases eq_or_ne (coxF U (i + 1) k t) 0 with h0 | h0
          · rw [h0, mul_zero]
          · have hsupp : U (i + 1) ≤ t ∧ t < U (i + 1 + k + 1) := by
              by_contra hc
              exact h0 (coxF_eq_zero U hU t k (i + 1) hc)
            have e : U (i + 1 + k + 1) = U (i + k + 2) := by
              congr 1
              omega
            have hnum : 0 ≤ U (i + k + 2) - t := by
              rw [← e]
              linarith [hsupp.2]
            have hrdpos : 0 < U (i + k + 2) - U (i + 1) :=
              lt_of_le_of_ne (by simpa [sub_nonneg] using hU (show i + 1 ≤ i + k + 2 by omega))
                (Ne.symm hrd)
            exact mul_nonneg (div_nonneg hnum (le_of_lt hrdpos)) (ih (i + 1))
        · exact le_refl 0

theorem coxF_succ (U : ℕ → ℚ) (k i : ℕ) (t : ℚ) :
    coxF U i (k + 1) t =
      coefA U k i t * coxF U i k t + coefB U k (i + 1) t * coxF U (i + 1) k t := by
  rw [coefA, coefB]
  have e : i + 1 + k + 1 = i + k + 2 := by omega
  rw [e]
  show (if U (i + k + 1) - U i ≠ 0 then
        (t - U i) / (U (i + k + 1) - U i) * coxF U i k t else 0)
      + (if U (i + k + 2) - U (i + 1) ≠ 0 then
        (U (i + k + 2) - t) / (U (i + k + 2) - U (i + 1)) * coxF U (i + 1) k t else 0)
    = (if U (i + k + 1) - U i = 0 then 0 else (t - U i) / (U (i + k + 1) - U i))
        * coxF U i k t
      + (if U (i + k + 2) - U (i + 1) = 0 then 0
          else (U (i + k + 2) - t) / (U (i + k + 2) - U (i + 1))) * coxF U (i + 1) k t
  rcases eq_or_ne (U (i + k + 1) - U i) 0 with h1 | h1 <;>
    rcases eq_or_ne (U (i + k + 2) - U (i + 1)) 0 with h2 | h2 <;>
    simp [h1, h2]

theorem coef_sum_apply (U : ℕ → ℚ) (hU : Monotone U) (k i : ℕ) (t : ℚ) :
    (coefA U k i t + coefB U k i t) * coxF U i k t = coxF U i k t := by
  unfold coefA coefB
  rcases eq_or_ne (U (i + k + 1) - U i) 0 with h | h
  · rw [if_pos h, if_pos h]
    have hz : coxF U i k t = 0 := by
      apply coxF_eq_zero U hU t k i
      intro hs
      have : U (i + k + 1) = U i := by linarith [sub_eq_zero.mp h]
      linarith [hs.1, hs.2]
    rw [hz]
    ring
  · rw [if_neg h, if_neg h, div_add_div_same]
    have e : t - U i + (U (i + k + 1) - t) = U (i + k + 1) - U i := by ring
    rw [e, div_self h, one_mul]

theorem coxF_base_partition (n d : ℕ) (hdn : d ≤ n) (t : ℚ) (ht0 : 0 ≤ t)
    (htn : t < (n : ℚ) - (d : ℚ) + 1) :
    ∑ i ∈ Finset.range (n + d + 1), coxF (knotFun n d) i 0 t = 1 := by
  have hU := knotFun_mono n d hdn
  have hm0 : (0 : ℤ) ≤ ⌊t⌋ := Int.floor_nonneg.mpr ht0
  have hmz : ((⌊t⌋.toNat : ℤ)) = ⌊t⌋ := Int.toNat_of_nonneg hm0
  set m := ⌊t⌋.toNat with hmdef
  have hmle : (m : ℚ) ≤ t := by
    have h1 : ((⌊t⌋ : ℤ) : ℚ) ≤ t := Int.floor_le t
    calc (m : ℚ) = ((m : ℤ) : ℚ) := by push_cast; ring
      _ = ((⌊t⌋ : ℤ) : ℚ) := by rw [hmz]
      _ ≤ t := h1
  have hmlt : t < (m : ℚ) + 1 := by
    have h1 : t < ((⌊t⌋ : ℤ) : ℚ) + 1 := Int.lt_floor_add_one t
    calc t < ((⌊t⌋ : ℤ) : ℚ) + 1 := h1
      _ = (m : ℚ) + 1 := by rw [← hmz]; push_cast; ring
  have hmn : m ≤ n - d := by
    have hfl : ⌊t⌋ < (n : ℤ) - (d : ℤ) + 1 := by
      apply Int.floor_lt.mpr
      push_cast
      linarith
    omega
  have hlow : knotFun n d (d + m) ≤ t := by
    rcases Nat.eq_zero_or_pos m with hm | hm
    · rw [hm, knotFun_le_d n d (d + 0) (by omega)]
      exact ht0
    · rw [knotFun_val n d (d + m) (by omega) (by omega)]
      push_cast
      linarith
  have hhigh : t < knotFun n d (d + m + 1) := by
    rcases Nat.lt_or_ge (d + m + 1) (n + 1) with hm | hm
    · rw [knotFun_val n d (d + m + 1) (by omega) (by omega)]
      push_cast
      linarith
    · rw [knotFun_top n d (d + m + 1) hdn (by omega)]
      linarith
  rw [Finset.sum_eq_single_of_mem (d + m) (Finset.mem_range.mpr (by omega))]
  · unfold coxF
    rw [if_pos ⟨hlow, hhigh⟩]
  · intro b hb hbne
    unfold coxF
    rw [if_neg]
    intro hcon
    rcases Nat.lt_or_ge b (d + m) with hlt | hge
    · have : knotFun n d (b + 1) ≤ knotFun n d (d + m) := hU (by omega)
      linarith [hcon.2, hlow]
    · have hgt : d + m + 1 ≤ b := by omega
      have : knotFun n d (d + m + 1) ≤ knotFun n d b := hU hgt
      linarith [hcon.1, hhigh]

theorem coxF_partition (n d : ℕ) (hdn : d ≤ n) :
    ∀ k, k ≤ d → ∀ t : ℚ, 0 ≤ t → t < (n : ℚ) - (d : ℚ) + 1 →
      ∑ i ∈ Finset.range (n + d + 1 - k), coxF (knotFun n d) i k t = 1 := by
  intro k
  induction k with
  | zero =>
      intro _ t ht0 htn
      rw [show n + d + 1 - 0 = n + d + 1 by omega]
      exact coxF_base_partition n d hdn t ht0 htn
  | succ k ih =>
      intro hk t ht0 htn
      have hkd : k ≤ d := by omega
      have hU := knotFun_mono n d hdn
      have hsum := ih hkd t ht0 htn
      have hN0 : coxF (knotFun n d) 0 k t = 0 := by
        apply coxF_eq_zero _ hU t
        intro hs
        have : knotFun n d (0 + k + 1) = 0 := knotFun_le_d n d _ (by omega)
        rw [this] at hs
        linarith [hs.1, hs.2]
      set Mt := n + d - k - 1 with hMt
      have hrange : n + d + 1 - (k + 1) = Mt + 1 := by omega
      have hrange2 : n + d + 1 - k = Mt + 2 := by omega
      have hNtop : coxF (knotFun n d) (Mt + 1) k t = 0 := by
        apply coxF_eq_zero _ hU t
        intro hs
        have h1 : knotFun n d (Mt + 1) = (n : ℚ) - (d : ℚ) + 1 :=
          knotFun_top n d _ hdn (by omega)
        have h2 : knotFun n d (Mt + 1 + k + 1) = (n : ℚ) - (d : ℚ) + 1 :=
          knotFun_top n d _ hdn (by omega)
        rw [h1] at hs
        rw [h2] at hs
        linarith [hs.1, hs.2]
      rw [hrange]
      calc ∑ i ∈ Finset.range (Mt + 1), coxF (knotFun n d) i (k + 1) t
          = ∑ i ∈ Finset.range (Mt + 1),
              (coefA (knotFun n d) k i t * coxF (knotFun n d) i k t
                + coefB (knotFun n d) k (i + 1) t * coxF (knotFun n d) (i + 1) k t) :=
            Finset.sum_congr rfl (fun i _ => coxF_succ (knotFun n d) k i t)
        _ = (∑ i ∈ Finset.range (Mt + 1),
              coefA (knotFun n d) k i t * coxF (knotFun n d) i k t)
            + ∑ i ∈ Finset.range (Mt + 1),
              coefB (knotFun n d) k (i + 1) t * coxF (knotFun n d) (i + 1) k t := by
            rw [Finset.sum_add_distrib]
        _ = ((∑ i ∈ Finset.range Mt,
              coefA (knotFun n d) k (i + 1) t * coxF (knotFun n d) (i + 1) k t)
              + coefA (knotFun n d) k 0 t * coxF (knotFun n d) 0 k t)
            + ((∑ i ∈ Finset.range Mt,
              coefB (knotFun n d) k (i + 1) t * coxF (knotFun n d) (i + 1) k t)
              + coefB (knotFun n d) k (Mt + 1) t * coxF (knotFun n d) (Mt + 1) k t) := by
            rw [Finset.sum_range_succ' (fun i => coefA (knotFun n d) k i t
              * coxF (knotFun n d) i k t) Mt]
            rw [Finset.sum_range_succ (fun i => coefB (knotFun n d) k (i + 1) t
              * coxF (knotFun n d) (i + 1) k t) Mt]
        _ = ∑ i ∈ Finset.range Mt,
              (coefA (knotFun n d) k (i + 1) t + coefB (knotFun n d) k (i + 1) t)
                * coxF (knotFun n d) (i + 1) k t := by
            rw [hN0, hNtop]
            simp only [mul_zero, add_zero]
            rw [← Finset.sum_add_distrib]
            apply Finset.sum_congr rfl
            intro i _
            ring
        _ = ∑ i ∈ Finset.range Mt, coxF (knotFun n d) (i + 1) k t :=
            Finset.sum_congr rfl (fun i _ => coef_sum_apply (knotFun n d) hU k (i + 1) t)
        _ = 1 := by
            rw [hrange2] at hsum
            rw [Finset.sum_range_succ] at hsum
            rw [hNtop, add_zero] at hsum
            rw [Finset.sum_range_succ' (fun i => coxF (knotFun n d) i k t) Mt] at hsum
            rw [hN0, add_zero] at hsum
            exact hsum

theorem cox_built_eq_coxF (n d i k : ℕ) (t : ℚ)
    (hik : i + k + 1 < (get_uniform_knots_v n d).length) :
    cox_de_boor (get_uniform_knots_v n d) i k t = coxF (knotFun n d) i k t := by
  apply cox_de_boor_eq_coxF
  intro j hj1 hj2
  exact knots_getD n d j (by omega)

theorem coxF_at_zero (n d : ℕ) (hdn : d ≤ n) :
    ∀ k, k ≤ d → ∀ i, coxF (knotFun n d) i k 0 = if i + k = d then 1 else 0 := by
  intro k
  induction k with
  | zero =>
      intro _ i
      unfold coxF
      by_cases hi : i = d
      · have c1 : knotFun n d i ≤ 0 := by
          rw [hi]
          exact (knotFun_le_d n d d le_rfl).le
        have c2 : (0 : ℚ) < knotFun n d (i + 1) := by
          rw [hi, knotFun_succ_d n d hdn]
          norm_num
        rw [if_pos ⟨c1, c2⟩, if_pos (by omega)]
      · rw [if_neg, if_neg (by omega)]
        intro hcon
        have h1 : i ≤ d := (knotFun_nonpos_iff n d i hdn).mp hcon.1
        have h2 : ¬ (i + 1 ≤ d) := by
          intro hle
          rw [knotFun_le_d n d (i + 1) hle] at hcon
          exact lt_irrefl 0 hcon.2
        omega
  | succ k ih =>
      intro hk i
      have hkd : k ≤ d := by omega
      rw [coxF_succ, ih hkd i, ih hkd (i + 1)]
      by_cases hc : i + (k + 1) = d
      · rw [if_neg (by omega), if_pos (by omega), if_pos hc]
        rw [mul_zero, zero_add, mul_one]
        rw [coefB]
        have e : i + 1 + k + 1 = d + 1 := by omega
        rw [e, knotFun_succ_d n d hdn, knotFun_le_d n d (i + 1) (by omega)]
        norm_num
      · rw [if_neg hc]
        by_cases hc2 : i + k = d
        · rw [if_pos hc2, if_neg (by omega)]
          rw [mul_zero, add_zero, mul_one]
          rw [coefA]
          have e : i + k + 1 = d + 1 := by omega
          rw [e, knotFun_succ_d n d hdn, knotFun_le_d n d i (by omega)]
          norm_num
        · rw [if_neg hc2, if_neg (by omega)]
          rw [mul_zero, mul_zero, add_zero]

theorem linspace_length (a b : ℚ) (S : ℕ) (hS : 2 ≤ S) : (linspace a b S).length = S := by
  rw [linspace, if_neg (by omega)]
  rw [List.length_map, List.length_range]

theorem linspace_getElem? (a b : ℚ) (S : ℕ) (hS : 2 ≤ S) (j : ℕ) (hj : j < S) :
    (linspace a b S)[j]? = some (a + (j : ℚ) * (b - a) / ((S : ℚ) - 1)) := by
  rw [linspace, if_neg (by omega), List.getElem?_map]
  simp [List.getElem?_range, hj]

theorem linspace_head (a b : ℚ) (S : ℕ) (hS : 2 ≤ S) :
    (linspace a b S)[0]? = some a := by
  rw [linspace_getElem? a b S hS 0 (by omega)]
  norm_num

theorem linspace_last (a b : ℚ) (S : ℕ) (hS : 2 ≤ S) :
    (linspace a b S)[S - 1]? = some b := by
  rw [linspace_getElem? a b S hS (S - 1) (by omega)]
  have hS1 : ((S : ℚ) - 1) ≠ 0 := by
    have h2 : (2 : ℚ) ≤ (S : ℚ) := by exact_mod_cast hS
    linarith
  have hcast : ((S - 1 : ℕ) : ℚ) = (S : ℚ) - 1 := by
    rw [Nat.cast_sub (by omega)]
    norm_num
  rw [hcast]
  congr 1
  field_simp

theorem evaluate_length (points : List (ℚ × ℚ)) (weights : List ℚ) (d S : ℕ)
    (hS : 2 ≤ S) : (evaluate points weights d S).length = S - 1 := by
  rw [evaluate, List.length_dropLast, List.length_map, linspace_length _ _ _ hS]

theorem evaluate_getElem? (points : List (ℚ × ℚ)) (weights : List ℚ) (d S : ℕ)
    (hS : 2 ≤ S) (j : ℕ) (hj : j < S - 1) :
    (evaluate points weights d S)[j]? =
      some (samplePoint points weights (get_uniform_knots_v points.length d) d
        (built_t_min points.length d
          + (j : ℚ) * (built_t_max points.length d - built_t_min points.length d)
            / ((S : ℚ) - 1))) := by
  rw [evaluate, List.dropLast_eq_take, List.getElem?_take]
  rw [List.length_map, linspace_length _ _ _ hS, if_pos hj]
  rw [List.getElem?_map, linspace_getElem? _ _ _ hS j (by omega)]
  rfl

theorem mapM_eq_some_map {α β : Type} (f : α → Option β) (g : α → β) :
    ∀ (l : List α), (∀ a ∈ l, f a = some (g a)) → l.mapM f = some (l.map g) := by
  intro l
  induction l with
  | nil => intro _; rfl
  | cons x xs ih =>
      intro h
      rw [List.map_cons, List.mapM_cons, h x (by simp),
        ih (fun a ha => h a (by simp [ha]))]
      rfl

theorem getD_map_range (g : ℕ → ℚ) (n i : ℕ) (h : i < n) :
    ((List.range n).map g).getD i 0 = g i := by
  rw [List.getD_eq_getElem _ _ (by simp [h]), List.getElem_map, List.getElem_range]

theorem getElem?_eq_some_getD (l : List ℚ) (i : ℕ) (h : i < l.length) :
    l[i]? = some (l.getD i 0) := by
  rw [List.getD_eq_getElem _ _ h]
  exact List.getElem?_eq_getElem h

theorem cox_de_boorE_eq_some (knots : List ℚ) (t : ℚ) :
    ∀ (k i : ℕ), cox_de_boorE knots i k t = some (cox_de_boor knots i k t) := by
  intro k
  induction k with
  | zero => intro i; rfl
  | succ k ih =>
      intro i
      rcases eq_or_ne (knots.getD (i + k + 1) 0 - knots.getD i 0) 0 with h1 | h1 <;>
        rcases eq_or_ne (knots.getD (i + k + 2) 0 - knots.getD (i + 1) 0) 0 with h2 | h2 <;>
        simp only [List.getD_eq_getElem?_getD] at h1 h2 <;>
        simp [cox_de_boorE, cox_de_boor, qdiv, h1, h2, ih]

theorem cox_de_boorB_eq_some (knots : List ℚ) (t : ℚ) :
    ∀ (k i : ℕ), i + k + 1 < knots.length →
      cox_de_boorB knots i k t = some (cox_de_boor knots i k t) := by
  intro k
  induction k with
  | zero =>
      intro i h
      have e1 := getElem?_eq_some_getD knots i (by omega)
      have e2 := getElem?_eq_some_getD knots (i + 1) (by omega)
      unfold cox_de_boorB cox_de_boor
      rw [e1, e2]
      simp only [Option.pure_def, Option.bind_eq_bind, Option.some_bind,
        List.getD_eq_getElem?_getD]
      by_cases h1 : knots[i]?.getD 0 ≤ t <;> by_cases h2 : t < knots[i + 1]?.getD 0 <;>
        simp [h1, h2]
  | succ k ih =>
      intro i h
      have e1 := getElem?_eq_some_getD knots i (by omega)
      have e2 := getElem?_eq_some_getD knots (i + k + 1) (by omega)
      have e3 := getElem?_eq_some_getD knots (i + k + 2) (by omega)
      have e4 := getElem?_eq_some_getD knots (i + 1) (by omega)
      have hi1 := ih i (by omega)
      have hi2 := ih (i + 1) (by omega)
      unfold cox_de_boorB cox_de_boor
      rw [e1, e2, e3, e4, hi1, hi2]
      rcases eq_or_ne (knots.getD (i + k + 1) 0 - knots.getD i 0) 0 with h1 | h1 <;>
        rcases eq_or_ne (knots.getD (i + k + 2) 0 - knots.getD (i + 1) 0) 0 with h2 | h2 <;>
        simp only [List.getD_eq_getElem?_getD] at h1 h2 <;>
        simp [h1, h2]

theorem samplePointB_eq_some (points : List (ℚ × ℚ)) (weights : List ℚ)
    (knots : List ℚ) (d : ℕ) (t : ℚ)
    (h : ∀ i, i < points.length → i + d + 1 < knots.length) :
    samplePointB points weights knots d t =
      some (samplePoint points weights knots d t) := by
  have hinfl : influencesB knots points.length d t =
      some ((List.range points.length).map (fun i => cox_de_boor knots i d t)) := by
    apply mapM_eq_some_map
    intro a ha
    rw [List.mem_range] at ha
    exact cox_de_boorB_eq_some knots t d a (h a ha)
  rw [samplePointB, hinfl]
  have hws : ∀ f : ℕ → ℚ, ∑ i ∈ Finset.range points.length,
      ((List.range points.length).map (fun i => cox_de_boor knots i d t)).getD i 0 * f i
      = ∑ i ∈ Finset.range points.length, cox_de_boor knots i d t * f i := by
    intro f
    apply Finset.sum_congr rfl
    intro i hi
    rw [Finset.mem_range] at hi
    rw [getD_map_range _ _ _ hi]
  have hws2 : ∀ f : ℕ → ℚ, ∑ i ∈ Finset.range points.length,
      ((List.range points.length).map (fun i => cox_de_boor knots i d t)).getD i 0
        * weights.getD i 0 * f i
      = ∑ i ∈ Finset.range points.length,
        cox_de_boor knots i d t * weights.getD i 0 * f i := by
    intro f
    apply Finset.sum_congr rfl
    intro i hi
    rw [Finset.mem_range] at hi
    rw [getD_map_range _ _ _ hi]
  simp only [Option.pure_def, Option.bind_eq_bind, Option.some_bind]
  rw [samplePoint, weightSumAt, rawPointAt]
  rw [hws (fun i => weights.getD i 0), hws2 (fun i => (points.getD i (0, 0)).1),
    hws2 (fun i => (points.getD i (0, 0)).2)]

theorem evaluateB_eq_some (points : List (ℚ × ℚ)) (weights : List ℚ) (d S : ℕ) :
    evaluateB points weights d S = some (evaluate points weights d S) := by
  have hlen := knots_length points.length d
  have htmin : pyGet (get_uniform_knots_v points.length d) ((d : ℕ) : ℤ) =
      some (built_t_min points.length d) := by
    rw [pyGet, if_pos (by exact_mod_cast Nat.zero_le d), Int.toNat_natCast]
    exact getElem?_eq_some_getD _ d (by omega)
  have htmax : pyGet (get_uniform_knots_v points.length d) (-(d : ℤ) - 1) =
      some (built_t_max points.length d) := by
    rw [pyGet, if_neg (by omega), if_pos (by omega)]
    have e : ((-(d : ℤ) - 1) + ((get_uniform_knots_v points.length d).length : ℤ)).toNat
        = (get_uniform_knots_v points.length d).length - d - 1 := by omega
    rw [e]
    exact getElem?_eq_some_getD _ _ (by omega)
  have hmapM := mapM_eq_some_map
      (fun t => samplePointB points weights (get_uniform_knots_v points.length d) d t)
      (fun t => samplePoint points weights (get_uniform_knots_v points.length d) d t)
      (linspace (built_t_min points.length d) (built_t_max points.length d) S)
      (fun a _ => samplePointB_eq_some points weights _ d a (fun i hi => by omega))
  unfold evaluateB
  simp only []
  rw [htmin, htmax]
  simp only [Option.pure_def, Option.bind_eq_bind, Option.some_bind]
  rw [hmapM]
  simp only [Option.some_bind]
  rw [evaluate]

/-- C1: the claim states that `get_uniform_knots_v` returns a knot vector of
length exactly `n + d + 1`.  Evaluating the builder at the spec's own concrete
scenario `n = 4`, `d = 3` yields 9 entries while `n + d + 1 = 8`: the code
always emits one extra entry (contradicting its own docstring
`#knots = count(CPs) + degree + 1`). -/
theorem C1_knot_length_code_bug :
    (get_uniform_knots_v 4 3).length = 9 ∧ 9 ≠ 4 + 3 + 1 := by
  constructor
  · norm_num [get_uniform_knots_v, pyRange, num_knots, List.range_succ]
  · norm_num

/-- C5: the degree-0 case of `cox_de_boor` returns `1` exactly when
`knots[i] ≤ t < knots[i+1]` and `0` otherwise, and in particular the interval
stays half-open at the final span: at `t` equal to the last knot value of any
built knot vector the degree-0 basis value is `0` at every valid index. -/
theorem C5_degree_zero_basis :
    (∀ (knots : List ℚ) (i : ℕ) (t : ℚ),
      cox_de_boor knots i 0 t
        = if knots.getD i 0 ≤ t ∧ t < knots.getD (i + 1) 0 then 1 else 0)
    ∧ ∀ (n d i : ℕ), i + 1 < (get_uniform_knots_v n d).length →
        cox_de_boor (get_uniform_knots_v n d) i 0
          ((num_knots n d - 2 * (d : ℤ) : ℤ) : ℚ) = 0 := by
  constructor
  · intro knots i t
    rfl
  · intro n d i hi
    have hlen := knots_length n d
    have g1 := knots_getD n d i (by omega)
    have g2 := knots_getD n d (i + 1) (by omega)
    unfold cox_de_boor
    rw [g1, g2, if_neg]
    intro hcon
    unfold knotFun at hcon
    have h1 : knotFunZ n d i ≤ num_knots n d - 2 * (d : ℤ) := by exact_mod_cast hcon.1
    have h2 : num_knots n d - 2 * (d : ℤ) < knotFunZ n d (i + 1) := by
      exact_mod_cast hcon.2
    rw [num_knots] at h1 h2
    unfold knotFunZ at h1 h2
    split_ifs at h1 h2 <;> omega

/-- Witness for C5 at `n = 4`, `d = 3`, `i = 0`. -/
theorem C5_degree_zero_basis_witness :
    0 + 1 < (get_uniform_knots_v 4 3).length
    ∧ cox_de_boor (get_uniform_knots_v 4 3) 0 0
        ((num_knots 4 3 - 2 * (3 : ℤ) : ℤ) : ℚ) = 0 := by
  constructor
  · rw [knots_length]
    norm_num
  · exact C5_degree_zero_basis.2 4 3 0 (by rw [knots_length]; norm_num)

/-- C6: `cox_de_boorE`, which routes every division the recursion actually
executes through a checked division, never produces a division error, and a
vanishing left (resp. right) denominator makes the corresponding term
contribute `0`, leaving only the other term. -/
theorem C6_zero_denominator_convention :
    (∀ (knots : List ℚ) (i k : ℕ) (t : ℚ),
      cox_de_boorE knots i k t = some (cox_de_boor knots i k t))
    ∧ (∀ (knots : List ℚ) (i k : ℕ) (t : ℚ),
        knots.getD (i + k + 1) 0 - knots.getD i 0 = 0 →
        cox_de_boor knots i (k + 1) t =
          (if knots.getD (i + k + 2) 0 - knots.getD (i + 1) 0 ≠ 0 then
            (knots.getD (i + k + 2) 0 - t)
              / (knots.getD (i + k + 2) 0 - knots.getD (i + 1) 0)
              * cox_de_boor knots (i + 1) k t
          else 0))
    ∧ (∀ (knots : List ℚ) (i k : ℕ) (t : ℚ),
        knots.getD (i + k + 2) 0 - knots.getD (i + 1) 0 = 0 →
        cox_de_boor knots i (k + 1) t =
          (if knots.getD (i + k + 1) 0 - knots.getD i 0 ≠ 0 then
            (t - knots.getD i 0) / (knots.getD (i + k + 1) 0 - knots.getD i 0)
              * cox_de_boor knots i k t
          else 0)) := by
  refine ⟨fun knots i k t => cox_de_boorE_eq_some knots t k i, ?_, ?_⟩
  · intro knots i k t h
    show (if knots.getD (i + k + 1) 0 - knots.getD i 0 ≠ 0 then
        (t - knots.getD i 0) / (knots.getD (i + k + 1) 0 - knots.getD i 0)
          * cox_de_boor knots i k t else 0)
      + (if knots.getD (i + k + 2) 0 - knots.getD (i + 1) 0 ≠ 0 then
        (knots.getD (i + k + 2) 0 - t)
          / (knots.getD (i + k + 2) 0 - knots.getD (i + 1) 0)
          * cox_de_boor knots (i + 1) k t else 0) = _
    rw [if_neg (not_not_intro h), zero_add]
  · intro knots i k t h
    show (if knots.getD (i + k + 1) 0 - knots.getD i 0 ≠ 0 then
        (t - knots.getD i 0) / (knots.getD (i + k + 1) 0 - knots.getD i 0)
          * cox_de_boor knots i k t else 0)
      + (if knots.getD (i + k + 2) 0 - knots.getD (i + 1) 0 ≠ 0 then
        (knots.getD (i + k + 2) 0 - t)
          / (knots.getD (i + k + 2) 0 - knots.getD (i + 1) 0)
          * cox_de_boor knots (i + 1) k t else 0) = _
    rw [if_neg (not_not_intro h), add_zero]

/-- Witness for C6 on the knot vector `[0, 0, 1]` with `i = 0`, `k = 0`,
`t = 1/2`, where the left denominator vanishes. -/
theorem C6_zero_denominator_convention_witness :
    ([0, 0, (1 : ℚ)].getD 1 0 - [0, 0, (1 : ℚ)].getD 0 0 = 0)
    ∧ cox_de_boor [0, 0, (1 : ℚ)] 0 1 (1 / 2) = 1 / 2 := by
  constructor
  · norm_num [List.getD]
  · refine (C6_zero_denominator_convention.2.1 [0, 0, (1 : ℚ)] 0 0 (1 / 2)
      (by norm_num [List.getD])).trans ?_
    norm_num [List.getD, cox_de_boor]

/-- C9: `evaluate` is a pure function of its inputs, so two runs on identical
inputs return identical point sequences. -/
theorem C9_determinism (points : List (ℚ × ℚ)) (weights : List ℚ) (d S : ℕ)
    (out₁ out₂ : List (ℚ × ℚ))
    (h₁ : out₁ = evaluate points weights d S)
    (h₂ : out₂ = evaluate points weights d S) : out₁ = out₂ := by
  rw [h₁, h₂]

/-- Witness for C9 at a concrete input. -/
theorem C9_determinism_witness :
    evaluate [((1 : ℚ), 2)] [1] 0 2 = evaluate [((1 : ℚ), 2)] [1] 0 2 :=
  C9_determinism [((1 : ℚ), 2)] [1] 0 2 _ _ rfl rfl

/-- C3: partition of unity.  For `n > 2d` and any parameter `t` with
`knots[d] ≤ t < knots[n]` over the built knot vector, the basis values of the
`n` control points computed by `cox_de_boor` sum to exactly `1`. -/
theorem C3_partition_of_unity (n d : ℕ) (t : ℚ) (hnd : 2 * d < n)
    (ht1 : (get_uniform_knots_v n d).getD d 0 ≤ t)
    (ht2 : t < (get_uniform_knots_v n d).getD n 0) :
    ∑ i ∈ Finset.range n, cox_de_boor (get_uniform_knots_v n d) i d t = 1 := by
  have hdn : d ≤ n := by omega
  have hdltn : d < n := by omega
  have hlen := knots_length n d
  rw [knots_getD n d d (by omega), knotFun_le_d n d d le_rfl] at ht1
  rw [knots_getD n d n (by omega), knotFun_val n d n hdltn le_rfl] at ht2
  rw [Finset.sum_congr rfl (fun i hi => cox_built_eq_coxF n d i d t
    (by rw [Finset.mem_range] at hi; omega))]
  have hpart := coxF_partition n d hdn d le_rfl t ht1 (by linarith)
  rw [show n + d + 1 - d = n + 1 by omega, Finset.sum_range_succ] at hpart
  have hzero : coxF (knotFun n d) n d t = 0 := by
    apply coxF_eq_zero _ (knotFun_mono n d hdn) t
    intro hs
    rw [knotFun_val n d n hdltn le_rfl] at hs
    linarith [hs.1]
  rw [hzero, add_zero] at hpart
  exact hpart

/-- Witness for C3 at `n = 3`, `d = 1`, `t = 1/2`. -/
theorem C3_partition_of_unity_witness :
    2 * 1 < 3
    ∧ ∑ i ∈ Finset.range 3, cox_de_boor (get_uniform_knots_v 3 1) i 1 (1 / 2) = 1 := by
  constructor
  · norm_num
  · exact C3_partition_of_unity 3 1 (1 / 2) (by norm_num)
      (by norm_num [get_uniform_knots_v, pyRange, num_knots, List.range_succ, List.getD,
        List.replicate, show ((2 : ℤ).toNat = 2) from rfl])
      (by norm_num [get_uniform_knots_v, pyRange, num_knots, List.range_succ, List.getD,
        List.replicate, show ((2 : ℤ).toNat = 2) from rfl])

/-- C2: for `S ≥ 2` samples, `evaluate` returns exactly `S - 1` points; the
`j`-th returned point is the sample at the `j`-th of `S` evenly spaced
parameter values, so the sequence is ordered along the parameter domain; the
final generated sample sits at `t_max` and is the one dropped. -/
theorem C2_sample_count_and_trimming (points : List (ℚ × ℚ)) (weights : List ℚ)
    (d S : ℕ) (hS : 2 ≤ S) :
    (evaluate points weights d S).length = S - 1
    ∧ (∀ j, j < S - 1 → (evaluate points weights d S)[j]?
        = some (samplePoint points weights (get_uniform_knots_v points.length d) d
            (built_t_min points.length d
              + (j : ℚ) * (built_t_max points.length d - built_t_min points.length d)
                / ((S : ℚ) - 1))))
    ∧ (linspace (built_t_min points.length d) (built_t_max points.length d) S)[S - 1]?
        = some (built_t_max points.length d)
    ∧ evaluate points weights d S
        = ((linspace (built_t_min points.length d) (built_t_max points.length d)
            S).map
            (fun t => samplePoint points weights (get_uniform_knots_v points.length d)
              d t)).dropLast :=
  ⟨evaluate_length points weights d S hS,
    fun j hj => evaluate_getElem? points weights d S hS j hj,
    linspace_last _ _ _ hS, rfl⟩

/-- Witness for C2 at one control point, unit weight, `d = 0`, `S = 2`. -/
theorem C2_sample_count_and_trimming_witness :
    (evaluate [((0 : ℚ), 0)] [(1 : ℚ)] 0 2).length = 2 - 1
    ∧ (linspace (built_t_min 1 0) (built_t_max 1 0) 2)[2 - 1]?
        = some (built_t_max 1 0) := by
  have h := C2_sample_count_and_trimming [((0 : ℚ), 0)] [(1 : ℚ)] 0 2 (by norm_num)
  exact ⟨h.1, h.2.2.1⟩

/-- C10: the bounds-checked evaluator, in which every knot subscription of
`evaluate` and of the basis recursion models Python's `IndexError`, agrees
with the unchecked one: no knot access is ever out of range. -/
theorem C10_no_out_of_range_knot_access (points : List (ℚ × ℚ)) (weights : List ℚ)
    (d S : ℕ) (_hn : 1 ≤ points.length) (_hS : 1 ≤ S) :
    evaluateB points weights d S = some (evaluate points weights d S) :=
  evaluateB_eq_some points weights d S

/-- Witness for C10 at a concrete input. -/
theorem C10_no_out_of_range_knot_access_witness :
    1 ≤ ([((0 : ℚ), 0)] : List (ℚ × ℚ)).length ∧ (1 : ℕ) ≤ 2
    ∧ evaluateB [((0 : ℚ), 0)] [(1 : ℚ)] 0 2
        = some (evaluate [((0 : ℚ), 0)] [(1 : ℚ)] 0 2) :=
  ⟨by norm_num, by norm_num,
    C10_no_out_of_range_knot_access [((0 : ℚ), 0)] [(1 : ℚ)] 0 2 (by norm_num)
      (by norm_num)⟩

/-- C7 as stated is false: with a negative weight, a non-positive
`weight_sum` leaves the raw accumulator unnormalized, and that accumulator
need not be the zero vector.  For one control point `(1, 1)` of weight `-1`
and `degree = 0`, the first sampled parameter is `t = 0`, the weight sum
there is not positive, and the emitted point is `(-1, -1) ≠ (0, 0)`. -/
theorem C7_zero_vector_counterexample :
    ¬ 0 < weightSumAt [((1 : ℚ), 1)] [(-1 : ℚ)] (get_uniform_knots_v 1 0) 0 0
    ∧ (linspace (built_t_min 1 0) (built_t_max 1 0) 2).getD 0 0 = 0
    ∧ evaluate [((1 : ℚ), 1)] [(-1 : ℚ)] 0 2 = [((-1 : ℚ), (-1 : ℚ))]
    ∧ ((-1 : ℚ), (-1 : ℚ)) ≠ ((0 : ℚ), (0 : ℚ)) := by
  refine ⟨?_, ?_, ?_, ?_⟩ <;>
    norm_num [weightSumAt, evaluate, samplePoint, rawPointAt, built_t_min,
      built_t_max, get_uniform_knots_v, pyRange, num_knots, linspace, cox_de_boor,
      Finset.sum_range_succ, List.getD, List.range_succ]

/-- C7 amended: at a sampled `t` whose accumulated `weight_sum` is not
strictly positive, no normalization occurs — the emitted point is the raw
accumulator — and when additionally every weight is nonnegative (the spec's
intended weight domain) that raw accumulator is the zero vector `(0, 0)`. -/
theorem C7_degenerate_weight_sum (points : List (ℚ × ℚ)) (weights : List ℚ)
    (d : ℕ) (t : ℚ) (hdn : d ≤ points.length)
    (hw : ∀ w ∈ weights, 0 ≤ w)
    (hws : ¬ 0 < weightSumAt points weights (get_uniform_knots_v points.length d) d t) :
    samplePoint points weights (get_uniform_knots_v points.length d) d t
      = rawPointAt points weights (get_uniform_knots_v points.length d) d t
    ∧ rawPointAt points weights (get_uniform_knots_v points.length d) d t = (0, 0) := by
  have hlen := knots_length points.length d
  have hmono := knotFun_mono points.length d hdn
  have hnn : ∀ i, i < points.length →
      0 ≤ cox_de_boor (get_uniform_knots_v points.length d) i d t := by
    intro i hi
    rw [cox_built_eq_coxF points.length d i d t (by omega)]
    exact coxF_nonneg _ hmono t d i
  have hwnn : ∀ i : ℕ, 0 ≤ weights.getD i 0 := by
    intro i
    rcases Nat.lt_or_ge i weights.length with h | h
    · rw [List.getD_eq_getElem _ _ h]
      exact hw _ (List.getElem_mem h)
    · rw [List.getD_eq_default _ _ h]
  have hterm : ∀ i ∈ Finset.range points.length,
      0 ≤ cox_de_boor (get_uniform_knots_v points.length d) i d t
        * weights.getD i 0 := by
    intro i hi
    rw [Finset.mem_range] at hi
    exact mul_nonneg (hnn i hi) (hwnn i)
  have hws0 : weightSumAt points weights (get_uniform_knots_v points.length d) d t
      = 0 := by
    have hge : 0 ≤ weightSumAt points weights (get_uniform_knots_v points.length d)
        d t := Finset.sum_nonneg hterm
    have hle := not_lt.mp hws
    linarith
  rw [weightSumAt] at hws0
  have hzero := (Finset.sum_eq_zero_iff_of_nonneg hterm).mp hws0
  constructor
  · show (if 0 < weightSumAt points weights (get_uniform_knots_v points.length d) d t
        then _ else rawPointAt points weights (get_uniform_knots_v points.length d)
          d t) = _
    rw [if_neg hws]
  · rw [rawPointAt, Prod.mk.injEq]
    constructor <;>
      · apply Finset.sum_eq_zero
        intro i hi
        rw [hzero i hi, zero_mul]

/-- Witness for the amended C7: one control point of weight `0`, `d = 0`,
`t = 0` gives a vanishing weight sum and the zero-vector raw point. -/
theorem C7_degenerate_weight_sum_witness :
    ¬ 0 < weightSumAt [((1 : ℚ), 1)] [(0 : ℚ)] (get_uniform_knots_v 1 0) 0 0
    ∧ rawPointAt [((1 : ℚ), 1)] [(0 : ℚ)] (get_uniform_knots_v 1 0) 0 0 = (0, 0) := by
  have hws : ¬ 0 < weightSumAt [((1 : ℚ), 1)] [(0 : ℚ)] (get_uniform_knots_v 1 0) 0 0 := by
    norm_num [weightSumAt, get_uniform_knots_v, pyRange, num_knots, cox_de_boor,
      Finset.sum_range_succ, List.getD, List.range_succ]
  exact ⟨hws, (C7_degenerate_weight_sum [((1 : ℚ), 1)] [(0 : ℚ)] 0 0 (by norm_num)
    (by intro w hw; simp at hw; rw [hw]) hws).2⟩

/-- C8: clamped endpoint interpolation.  For degree `d ≥ 1`, exactly
`d + 1` control points, uniform positive weights and `S ≥ 2` samples, the
first point returned by `evaluate` is the first control point. -/
theorem C8_endpoint_interpolation (d : ℕ) (points : List (ℚ × ℚ)) (w : ℚ)
    (S : ℕ) (hd : 1 ≤ d) (hn : points.length = d + 1) (hw : 0 < w)
    (hS : 2 ≤ S) :
    (evaluate points (List.replicate (d + 1) w) d S).getD 0 (0, 0)
      = points.getD 0 (0, 0) := by
  have hlen := knots_length points.length d
  have htmin : built_t_min points.length d = 0 := by
    rw [built_t_min, knots_getD points.length d d (by omega),
      knotFun_le_d points.length d d le_rfl]
  rw [List.getD_eq_getElem?_getD,
    evaluate_getElem? points (List.replicate (d + 1) w) d S hS 0 (by omega),
    Option.getD_some]
  rw [htmin]
  rw [show (0 : ℚ) + ((0 : ℕ) : ℚ) * (built_t_max points.length d - 0) / ((S : ℚ) - 1)
      = 0 by push_cast; ring]
  have hcox : ∀ i, i < points.length →
      cox_de_boor (get_uniform_knots_v points.length d) i d 0
        = if i = 0 then 1 else 0 := by
    intro i hi
    rw [cox_built_eq_coxF points.length d i d 0 (by omega),
      coxF_at_zero points.length d (by omega) d le_rfl i]
    by_cases h0 : i = 0
    · rw [if_pos (by omega), if_pos h0]
    · rw [if_neg (by omega), if_neg h0]
  have hwg : ∀ i, i < points.length → (List.replicate (d + 1) w).getD i 0 = w := by
    intro i hi
    rw [List.getD_eq_getElem _ _ (by rw [List.length_replicate]; omega),
      List.getElem_replicate]
  have hws : weightSumAt points (List.replicate (d + 1) w)
      (get_uniform_knots_v points.length d) d 0 = w := by
    have e1 : ∀ i ∈ Finset.range points.length,
        cox_de_boor (get_uniform_knots_v points.length d) i d 0
          * (List.replicate (d + 1) w).getD i 0 = if i = 0 then w else 0 := by
      intro i hi
      rw [Finset.mem_range] at hi
      rw [hcox i hi, hwg i hi]
      by_cases h0 : i = 0 <;> simp [h0]
    rw [weightSumAt, Finset.sum_congr rfl e1,
      Finset.sum_ite_eq' (Finset.range points.length) 0 (fun _ => w),
      if_pos (Finset.mem_range.mpr (by omega))]
  have hraw : ∀ f : ℕ → ℚ, ∑ i ∈ Finset.range points.length,
      cox_de_boor (get_uniform_knots_v points.length d) i d 0
        * (List.replicate (d + 1) w).getD i 0 * f i
      = w * f 0 := by
    intro f
    have e2 : ∀ i ∈ Finset.range points.length,
        cox_de_boor (get_uniform_knots_v points.length d) i d 0
          * (List.replicate (d + 1) w).getD i 0 * f i
          = if i = 0 then w * f i else 0 := by
      intro i hi
      rw [Finset.mem_range] at hi
      rw [hcox i hi, hwg i hi]
      by_cases h0 : i = 0 <;> simp [h0]
    rw [Finset.sum_congr rfl e2,
      Finset.sum_ite_eq' (Finset.range points.length) 0 (fun i => w * f i),
      if_pos (Finset.mem_range.mpr (by omega))]
  have hr1 : (rawPointAt points (List.replicate (d + 1) w)
      (get_uniform_knots_v points.length d) d 0).1
      = w * (points.getD 0 (0, 0)).1 := hraw (fun i => (points.getD i (0, 0)).1)
  have hr2 : (rawPointAt points (List.replicate (d + 1) w)
      (get_uniform_knots_v points.length d) d 0).2
      = w * (points.getD 0 (0, 0)).2 := hraw (fun i => (points.getD i (0, 0)).2)
  show (if 0 < weightSumAt points (List.replicate (d + 1) w)
      (get_uniform_knots_v points.length d) d 0 then
        ((rawPointAt points (List.replicate (d + 1) w)
            (get_uniform_knots_v points.length d) d 0).1
          / weightSumAt points (List.replicate (d + 1) w)
            (get_uniform_knots_v points.length d) d 0,
         (rawPointAt points (List.replicate (d + 1) w)
            (get_uniform_knots_v points.length d) d 0).2
          / weightSumAt points (List.replicate (d + 1) w)
            (get_uniform_knots_v points.length d) d 0)
      else rawPointAt points (List.replicate (d + 1) w)
        (get_uniform_knots_v points.length d) d 0) = points.getD 0 (0, 0)
  rw [if_pos (by rw [hws]; exact hw), hws, hr1, hr2,
    mul_div_cancel_left₀ _ (ne_of_gt hw), mul_div_cancel_left₀ _ (ne_of_gt hw)]

/-- Witness for C8 with `d = 1`, control points `(2, 3)` and `(5, 7)`,
unit weights and `S = 2`. -/
theorem C8_endpoint_interpolation_witness :
    0 < (1 : ℚ)
    ∧ (evaluate [((2 : ℚ), 3), ((5 : ℚ), 7)] (List.replicate 2 1) 1 2).getD 0 (0, 0)
        = ((2 : ℚ), 3) := by
  constructor
  · norm_num
  · have h := C8_endpoint_interpolation 1 [((2 : ℚ), 3), ((5 : ℚ), 7)] 1 2
      le_rfl (by norm_num) one_pos (by norm_num)
    rw [h]
    norm_num [List.getD]

theorem knots_getElem (n d j : ℕ) (hj : j < (get_uniform_knots_v n d).length) :
    (get_uniform_knots_v n d)[j] = knotFun n d j := by
  rw [← List.getD_eq_getElem (get_uniform_knots_v n d) 0 hj]
  exact knots_getD n d j hj

theorem knots_last_val_cast (n d : ℕ) (hd : 2 * d < n) :
    ((num_knots n d - 2 * (d : ℤ) : ℤ) : ℚ) = ((n + d + 1 - 2 * d : ℕ) : ℚ) := by
  rw [num_knots, Nat.cast_sub (by omega)]
  push_cast
  ring

/-- C4: for `n ≥ 1` and `n > 2d` the built knot vector is, in order, `d+1`
zeros, the consecutive integers `1 .. n+d+1-2d-1`, and `d+1` copies of
`n+d+1-2d`; consequently it is non-decreasing and the first and last values
each occur exactly `d+1` times. -/
theorem C4_knot_vector_shape (n d : ℕ) (hn : 1 ≤ n) (hd : 2 * d < n) :
    get_uniform_knots_v n d
      = List.replicate (d + 1) (0 : ℚ)
        ++ (List.range (n + d + 1 - 2 * d - 1)).map (fun j : ℕ => (j : ℚ) + 1)
        ++ List.replicate (d + 1) ((n + d + 1 - 2 * d : ℕ) : ℚ)
    ∧ List.Chain' (fun a b => a ≤ b) (get_uniform_knots_v n d)
    ∧ (get_uniform_knots_v n d).count (0 : ℚ) = d + 1
    ∧ (get_uniform_knots_v n d).count ((n + d + 1 - 2 * d : ℕ) : ℚ) = d + 1 := by
  have hval := knots_last_val_cast n d hd
  have hBmem : ∀ x ∈ (pyRange 1 (num_knots n d - 2 * (d : ℤ))).map
      (fun z : ℤ => (z : ℚ)), ∃ j : ℕ, j < n - d ∧ x = (j : ℚ) + 1 := by
    intro x hx
    rw [List.mem_map] at hx
    obtain ⟨z, hz, hzx⟩ := hx
    rw [pyRange, List.mem_map] at hz
    obtain ⟨j, hj, hjz⟩ := hz
    rw [List.mem_range] at hj
    refine ⟨j, by rw [num_knots] at hj; omega, ?_⟩
    rw [← hzx, ← hjz]
    push_cast
    ring
  refine ⟨?_, ?_, ?_, ?_⟩
  · rw [get_uniform_knots_v, hval]
    have hmid : (pyRange 1 (num_knots n d - 2 * (d : ℤ))).map (fun z : ℤ => (z : ℚ))
        = (List.range (n + d + 1 - 2 * d - 1)).map (fun j : ℕ => (j : ℚ) + 1) := by
      rw [pyRange, List.map_map]
      rw [show (num_knots n d - 2 * (d : ℤ) - 1).toNat = n + d + 1 - 2 * d - 1 by
        rw [num_knots]; omega]
      apply List.map_congr_left
      intro a _
      show ((1 + (a : ℤ) : ℤ) : ℚ) = (a : ℚ) + 1
      push_cast
      ring
    rw [hmid]
  · rw [List.chain'_iff_get]
    intro i hi
    have hlen := knots_length n d
    simp only [List.get_eq_getElem]
    rw [knots_getElem n d i (by omega), knots_getElem n d (i + 1) (by omega)]
    exact knotFun_mono n d (by omega) (by omega)
  · rw [get_uniform_knots_v, List.count_append, List.count_append]
    have cA : (List.replicate (d + 1) (0 : ℚ)).count 0 = d + 1 := by
      simp [List.count_replicate]
    have cB : ((pyRange 1 (num_knots n d - 2 * (d : ℤ))).map
        (fun z : ℤ => (z : ℚ))).count 0 = 0 := by
      rw [List.count_eq_zero]
      intro hmem
      obtain ⟨j, hj, hx⟩ := hBmem 0 hmem
      have hpos : (0 : ℚ) < (j : ℚ) + 1 := by positivity
      linarith [hx]
    have cC : (List.replicate (d + 1)
        ((num_knots n d - 2 * (d : ℤ) : ℤ) : ℚ)).count 0 = 0 := by
      have hne : ((num_knots n d - 2 * (d : ℤ) : ℤ) : ℚ) ≠ 0 := by
        rw [hval]
        exact_mod_cast (by omega : (n + d + 1 - 2 * d : ℕ) ≠ 0)
      simp only [List.count_replicate, beq_iff_eq]
      rw [if_neg hne]
    rw [cA, cB, cC]
  · rw [get_uniform_knots_v, List.count_append, List.count_append]
    have cA : (List.replicate (d + 1) (0 : ℚ)).count
        ((n + d + 1 - 2 * d : ℕ) : ℚ) = 0 := by
      have hne : (0 : ℚ) ≠ ((n + d + 1 - 2 * d : ℕ) : ℚ) := by
        intro hc
        have h0 : (n + d + 1 - 2 * d : ℕ) = 0 := by exact_mod_cast hc.symm
        omega
      simp [List.count_replicate, hne]
    have cB : ((pyRange 1 (num_knots n d - 2 * (d : ℤ))).map
        (fun z : ℤ => (z : ℚ))).count ((n + d + 1 - 2 * d : ℕ) : ℚ) = 0 := by
      rw [List.count_eq_zero]
      intro hmem
      obtain ⟨j, hj, hx⟩ := hBmem _ hmem
      have hc : ((n + d + 1 - 2 * d : ℕ) : ℚ) = ((j + 1 : ℕ) : ℚ) := by
        push_cast
        linarith [hx]
      have he : (n + d + 1 - 2 * d : ℕ) = j + 1 := by exact_mod_cast hc
      omega
    have cC : (List.replicate (d + 1)
        ((num_knots n d - 2 * (d : ℤ) : ℤ) : ℚ)).count
        ((n + d + 1 - 2 * d : ℕ) : ℚ) = d + 1 := by
      rw [hval]
      simp [List.count_replicate]
    rw [cA, cB, cC]
    omega

/-- Witness for C4 at `n = 3`, `d = 1`. -/
theorem C4_knot_vector_shape_witness :
    1 ≤ 3 ∧ 2 * 1 < 3
    ∧ get_uniform_knots_v 3 1
        = List.replicate (1 + 1) (0 : ℚ)
          ++ (List.range (3 + 1 + 1 - 2 * 1 - 1)).map (fun j : ℕ => (j : ℚ) + 1)
          ++ List.replicate (1 + 1) ((3 + 1 + 1 - 2 * 1 : ℕ) : ℚ) :=
  ⟨by norm_num, by norm_num, (C4_knot_vector_shape 3 1 (by norm_num) (by norm_num)).1⟩
